import Mathlib

/-!
# DayLight Cognitive Load Engine — verification development

Shallow embedding, in Lean 4, of the cost/budget/scheduling logic of the
DayLight calendar application, together with theorems settling the spec
claims about it.

Sources embedded here:
* `CalendarWeekView` (effective cost selection, collision detection and the
  manual-save flow) — frontend component.
* `WeeklyHeatmap` (weekly debt display) — frontend component.
* The cost model, cost breakdown, week optimizer slot search, gap penalty
  and session reconciler: the backend Python modules
  (`cost_calculator.py`, `schedule_optimizer.py`, `cognitive_load`) are not
  present in the repository snapshot; those definitions are modelled from
  the specification (and, for the optimizer, from the pseudocode in the
  in-repo plan file `fix_week_optimization_timing_65f24a44.plan.md` and the
  README's cost formula), as marked on each definition.

Numbers are embedded as `ℚ` (costs) and `ℤ` (times, in minutes), so all
definitions are executable and concrete instances evaluate by `decide`.
-/

/-! ## Calendar events (from `CalendarWeekView`) -/

/-- An event as seen by the week view: identifier, interval endpoints
(timestamps in abstract integer units), completion flag and the two cost
fields.  Nullable fields of the source are `Option`. -/
structure TimedEvent where
  id : ℕ
  start_time : ℤ
  end_time : ℤ
  is_completed : Bool := false
  prorated_cost : Option ℚ := none
  calculated_cost : Option ℚ := none
deriving DecidableEq, Repr

/-- Source: `isEventPastEndTime` — `now >= endTime`, with `now` passed in
explicitly (the component reads the wall clock). -/
def isEventPastEndTime (now : ℤ) (e : TimedEvent) : Bool :=
  decide (e.end_time ≤ now)

/-- Source: `getEffectiveCost` —
`is_completed && prorated_cost != null` returns `prorated_cost`;
otherwise `is_completed || isPast` returns `calculated_cost || 0`;
otherwise `0`. -/
def getEffectiveCost (now : ℤ) (e : TimedEvent) : ℚ :=
  if e.is_completed = true ∧ e.prorated_cost.isSome then e.prorated_cost.getD 0
  else if e.is_completed = true ∨ isEventPastEndTime now e = true then e.calculated_cost.getD 0
  else 0

/-- Source: `eventsOverlap` — `start1 < end2 && start2 < end1`, strict. -/
def eventsOverlap (e1 e2 : TimedEvent) : Bool :=
  decide (e1.start_time < e2.end_time ∧ e2.start_time < e1.end_time)

/-- Source: `findCollidingEvents` — filters the existing events, skipping
the event with `excludeId` (when one is given) and keeping those that
overlap the pending event data. -/
def findCollidingEvents (eventData : TimedEvent) (existing : List TimedEvent)
    (excludeId : Option ℕ) : List TimedEvent :=
  existing.filter fun e =>
    match excludeId with
    | some i => if e.id = i then false else eventsOverlap eventData e
    | none => eventsOverlap eventData e

/-- Outcome of a manual save attempt: either the event data is saved, or a
collision warning is raised carrying the pending data and the colliding
events. -/
inductive SaveOutcome where
  | saved (data : TimedEvent)
  | warned (pending : TimedEvent) (colliding : List TimedEvent)
deriving DecidableEq, Repr

/-- Source: the decision core of `handleSaveEdit` (also of `handleDrop`):
compute the collisions of the pending data against the existing events
(excluding the edited event itself unless creating a new one); if any,
store a collision warning and do not save; otherwise save. -/
def handleSaveEdit (eventData : TimedEvent) (events : List TimedEvent)
    (isCreatingNew : Bool) (editingId : Option ℕ) : SaveOutcome :=
  let collisions := findCollidingEvents eventData events
      (if isCreatingNew then none else editingId)
  if 0 < collisions.length then .warned eventData collisions
  else .saved eventData

/-- Source: `handleKeepAnyway` — on explicit confirmation, performs the save
with exactly the pending event data stored in the warning. -/
def handleKeepAnyway (pending : TimedEvent) : SaveOutcome :=
  .saved pending

/-- A bare interval event (no completion or cost data), used in concrete
instances. -/
def mkEv (i : ℕ) (s e : ℤ) : TimedEvent :=
  ⟨i, s, e, false, none, none⟩

/-! ## Theorems for the week-view claims -/

/-- C1: effective-cost precedence.  For every event and every clock value:
a completed event with a recorded prorated cost contributes that prorated
cost; a completed event without one contributes its calculated cost; an
incomplete event whose end time has passed contributes its calculated cost;
a future incomplete event contributes 0. -/
theorem getEffectiveCost_precedence (now : ℤ) (e : TimedEvent) :
    (∀ p : ℚ, e.is_completed = true → e.prorated_cost = some p →
      getEffectiveCost now e = p) ∧
    (∀ c : ℚ, e.is_completed = true → e.prorated_cost = none →
      e.calculated_cost = some c → getEffectiveCost now e = c) ∧
    (∀ c : ℚ, e.is_completed = false → e.end_time ≤ now →
      e.calculated_cost = some c → getEffectiveCost now e = c) ∧
    (e.is_completed = false → now < e.end_time → getEffectiveCost now e = 0) := by
  refine ⟨?_, ?_, ?_, ?_⟩
  · intro p hc hp
    simp [getEffectiveCost, hc, hp]
  · intro c hc hp hcc
    simp [getEffectiveCost, hc, hp, hcc]
  · intro c hc hpast hcc
    simp [getEffectiveCost, hc, hcc, isEventPastEndTime, hpast]
  · intro hc hfut
    simp [getEffectiveCost, hc, isEventPastEndTime, not_le.mpr hfut]

/-- Witness for C1: the four precedence cases evaluated on concrete events
(completed+prorated, completed without proration, past-incomplete,
future-incomplete). -/
theorem getEffectiveCost_precedence_witness :
    getEffectiveCost 100 ⟨1, 0, 50, true, some 5, some 7⟩ = 5 ∧
    getEffectiveCost 100 ⟨2, 0, 50, true, none, some 7⟩ = 7 ∧
    getEffectiveCost 100 ⟨3, 0, 50, false, none, some 7⟩ = 7 ∧
    getEffectiveCost 100 ⟨4, 200, 300, false, none, some 7⟩ = 0 :=
  ⟨(getEffectiveCost_precedence 100 _).1 5 rfl rfl,
   (getEffectiveCost_precedence 100 _).2.1 7 rfl rfl rfl,
   (getEffectiveCost_precedence 100 _).2.2.1 7 rfl (by decide) rfl,
   (getEffectiveCost_precedence 100 _).2.2.2 rfl (by decide)⟩

/-- C10: the collision check is exactly the strict two-sided interval
comparison, hence symmetric; boundary-touching events never collide; and
when editing an existing event it is excluded from its own collision set. -/
theorem eventsOverlap_spec :
    (∀ e1 e2 : TimedEvent, eventsOverlap e1 e2 = true ↔
      (e1.start_time < e2.end_time ∧ e2.start_time < e1.end_time)) ∧
    (∀ e1 e2 : TimedEvent, eventsOverlap e1 e2 = eventsOverlap e2 e1) ∧
    (∀ e1 e2 : TimedEvent, e1.end_time = e2.start_time →
      eventsOverlap e1 e2 = false) ∧
    (∀ (d : TimedEvent) (evs : List TimedEvent) (i : ℕ) (e : TimedEvent),
      e ∈ findCollidingEvents d evs (some i) → e.id ≠ i) := by
  refine ⟨?_, ?_, ?_, ?_⟩
  · intro e1 e2
    simp [eventsOverlap]
  · intro e1 e2
    simp only [eventsOverlap, decide_eq_decide]
    constructor <;> exact fun h => ⟨h.2, h.1⟩
  · intro e1 e2 h
    simp [eventsOverlap, h]
  · intro d evs i e he hid
    have := List.of_mem_filter he
    simp [hid] at this

/-- Witness for C10: symmetry, a boundary-touching pair reported as not
colliding, and self-exclusion, at concrete events. -/
theorem eventsOverlap_spec_witness :
    eventsOverlap (mkEv 1 0 60) (mkEv 2 30 90) = true ∧
    eventsOverlap (mkEv 1 0 60) (mkEv 2 60 120) = false ∧
    (∀ e ∈ findCollidingEvents (mkEv 0 0 60) [(mkEv 7 30 90)] (some 7), e.id ≠ 7) :=
  ⟨eventsOverlap_spec.1 (mkEv 1 0 60) (mkEv 2 30 90) |>.mpr (by decide),
   eventsOverlap_spec.2.2.1 (mkEv 1 0 60) (mkEv 2 60 120) rfl,
   fun e he => eventsOverlap_spec.2.2.2 _ _ 7 e he⟩

/-- C8: a manual placement that overlaps an existing event is never saved
automatically: the outcome is a warning listing exactly the overlapping
(non-excluded) events and carrying the pending data unchanged; a save
outcome can only arise when there is no collision; and the explicit
"keep anyway" confirmation saves exactly the pending data. -/
theorem manualSave_collision_flow (eventData : TimedEvent)
    (events : List TimedEvent) (isNew : Bool) (editingId : Option ℕ) :
    (findCollidingEvents eventData events
        (if isNew then none else editingId) ≠ [] →
      handleSaveEdit eventData events isNew editingId =
        .warned eventData (findCollidingEvents eventData events
          (if isNew then none else editingId))) ∧
    (∀ d, handleSaveEdit eventData events isNew editingId = .saved d →
      findCollidingEvents eventData events
        (if isNew then none else editingId) = [] ∧ d = eventData) ∧
    (∀ e, e ∈ findCollidingEvents eventData events (if isNew then none else editingId) →
      e ∈ events ∧ eventsOverlap eventData e = true) ∧
    handleKeepAnyway eventData = .saved eventData := by
  refine ⟨?_, ?_, ?_, rfl⟩
  · intro hne
    have hlen : 0 < (findCollidingEvents eventData events
        (if isNew then none else editingId)).length :=
      List.length_pos.mpr hne
    simp [handleSaveEdit, hlen]
  · intro d hd
    by_cases hlen : 0 < (findCollidingEvents eventData events
        (if isNew then none else editingId)).length
    · simp [handleSaveEdit, hlen] at hd
    · have hnil := List.length_eq_zero.mp (Nat.eq_zero_of_not_pos hlen)
      refine ⟨hnil, ?_⟩
      simp [handleSaveEdit, hnil] at hd
      exact hd.symm
  · intro e he
    refine ⟨List.mem_of_mem_filter he, ?_⟩
    have := List.of_mem_filter he
    cases h : (if isNew then none else editingId : Option ℕ) with
    | none => simpa [h] using this
    | some i =>
      rw [h] at this
      by_cases hid : e.id = i
      · simp [hid] at this
      · simpa [hid] using this

/-- Witness for C8: a pending event overlapping one existing event produces
a warning with that event and no save; confirming stores the pending data
unchanged. -/
theorem manualSave_collision_flow_witness :
    handleSaveEdit (mkEv 0 0 60) [(mkEv 5 30 90)] true none =
      .warned (mkEv 0 0 60) [(mkEv 5 30 90)] ∧
    handleKeepAnyway (mkEv 0 0 60) = .saved (mkEv 0 0 60) :=
  ⟨(manualSave_collision_flow (mkEv 0 0 60) [(mkEv 5 30 90)] true none).1 (by decide),
   (manualSave_collision_flow (mkEv 0 0 60) [(mkEv 5 30 90)] true none).2.2.2⟩

/-! ## Weekly load heatmap (from `WeeklyHeatmap`) -/

/-- Source: `DAILY_BUDGET` constant of the current `WeeklyHeatmap`
component (an older variant of the same component uses 32). -/
def heatmapDailyBudget : ℤ := 20

/-- Source: `days = Object.entries(dailyTotals).sort(...)` — the day
entries (key, total) sorted by key. -/
def heatmapDays (dailyTotals : List (ℕ × ℤ)) : List (ℕ × ℤ) :=
  dailyTotals.insertionSort fun a b => a.1 ≤ b.1

/-- Source: `totalWeek = days.reduce((sum, [, val]) => sum + val, 0)`. -/
def heatmapTotalWeek (dailyTotals : List (ℕ × ℤ)) : ℤ :=
  ((heatmapDays dailyTotals).map Prod.snd).sum

/-- Source: `debt = totalWeek - weeklyBudget` with
`weeklyBudget = DAILY_BUDGET * 7`. -/
def heatmapDebt (dailyTotals : List (ℕ × ℤ)) : ℤ :=
  heatmapTotalWeek dailyTotals - heatmapDailyBudget * 7

/-- Source: the header renders `+debt debt` when `debt > 0` and
`|debt| surplus` otherwise; first component is `true` for the debt label,
the second is the displayed magnitude. -/
def heatmapHeader (dailyTotals : List (ℕ × ℤ)) : Bool × ℤ :=
  if 0 < heatmapDebt dailyTotals then (true, heatmapDebt dailyTotals)
  else (false, |heatmapDebt dailyTotals|)

/-- The claim's daily-debt formula: `max(0, spent − 20)`. -/
def dailyDebtSpec (spent : ℤ) : ℤ := max 0 (spent - 20)

/-- The claim's weekly-debt formula: sum of the daily debts. -/
def weeklyDebtSpec (totals : List ℤ) : ℤ := (totals.map dailyDebtSpec).sum

/-! ## Theorems for the heatmap claim -/

/-- C2 counterexample: on the week [30,0,0,0,0,0,0] the heatmap computes a
weekly debt of −110 (30 total spent minus the 140-point weekly budget),
while the claimed sum-of-daily-debts is 10; the two disagree and the
computed value is negative, contradicting "weekly debt is always ≥ 0". -/
theorem heatmapDebt_not_sum_of_daily_debts :
    heatmapDebt [(0, 30), (1, 0), (2, 0), (3, 0), (4, 0), (5, 0), (6, 0)] = -110 ∧
    weeklyDebtSpec [30, 0, 0, 0, 0, 0, 0] = 10 ∧
    heatmapDebt [(0, 30), (1, 0), (2, 0), (3, 0), (4, 0), (5, 0), (6, 0)] ≠
      weeklyDebtSpec [30, 0, 0, 0, 0, 0, 0] ∧
    heatmapDebt [(0, 30), (1, 0), (2, 0), (3, 0), (4, 0), (5, 0), (6, 0)] < 0 := by
  refine ⟨?_, ?_, ?_, ?_⟩ <;> decide

/-- C2 amended: the heatmap's weekly figure equals the raw sum of the daily
totals minus the 140-point weekly budget (sorting the day entries does not
change the sum), it is not clamped at 0, and the header shows it as debt
exactly when the week's total exceeds 140, otherwise showing the absolute
value as surplus. -/
theorem heatmapDebt_formula (dailyTotals : List (ℕ × ℤ)) :
    heatmapDebt dailyTotals = (dailyTotals.map Prod.snd).sum - 140 ∧
    heatmapHeader dailyTotals =
      (decide (140 < (dailyTotals.map Prod.snd).sum),
        |(dailyTotals.map Prod.snd).sum - 140|) := by
  have hperm : List.Perm ((heatmapDays dailyTotals).map Prod.snd) (dailyTotals.map Prod.snd) := by
    unfold heatmapDays
    exact (List.perm_insertionSort _ dailyTotals).map Prod.snd
  have hsum : heatmapTotalWeek dailyTotals = (dailyTotals.map Prod.snd).sum :=
    hperm.sum_eq
  have hdebt : heatmapDebt dailyTotals = (dailyTotals.map Prod.snd).sum - 140 := by
    simp [heatmapDebt, hsum, heatmapDailyBudget]
  refine ⟨hdebt, ?_⟩
  by_cases h : 0 < heatmapDebt dailyTotals
  · have h140 : 140 < (dailyTotals.map Prod.snd).sum := by omega
    have habs : |(dailyTotals.map Prod.snd).sum - 140| =
        (dailyTotals.map Prod.snd).sum - 140 := abs_of_pos (by omega)
    simp [heatmapHeader, h, hdebt, h140, habs]
  · have h140 : ¬ 140 < (dailyTotals.map Prod.snd).sum := by omega
    simp [heatmapHeader, h, hdebt, h140]

/-! ## Cost model (modelled from the spec) -/

/-- Event categories of the cost model. -/
inductive EventType where
  | meeting
  | deep_work
  | recovery
  | admin
  | unknown
deriving DecidableEq, Repr

/-- Modelled from the spec: the cost-model view of an event —
`cost_calculator` is not in the repository snapshot.  `start_time` is
minutes from midnight (so the source's `start_time.hour` is
`start_time / 60`); `point_value` is the point value of the matching
recovery-catalog activity, used only for recovery events. -/
structure CostEvent where
  start_time : ℕ
  duration_minutes : ℕ
  event_type : EventType
  participants : Option ℕ := none
  has_agenda : Option Bool := none
  point_value : ℚ := 0
deriving DecidableEq, Repr

/-- Derived end time in minutes from midnight. -/
def CostEvent.endTime (e : CostEvent) : ℕ :=
  e.start_time + e.duration_minutes

/-- Modelled from the spec: the meeting-overhead terms apply to `meeting`
and `admin` events. -/
def isMeetingOrAdmin (t : EventType) : Bool :=
  decide (t = .meeting ∨ t = .admin)

/-- Modelled from the spec: `base = duration_minutes * 0.15`, overridden to
`-abs(point_value)` for recovery events. -/
def costBase (e : CostEvent) : ℚ :=
  if e.event_type = .recovery then -|e.point_value|
  else (e.duration_minutes : ℚ) * (3 / 20)

/-- Modelled from the spec: `participants` defaults to 1 if unset and is
clamped to 1 from below. -/
def clampParticipants (p : Option ℕ) : ℕ :=
  max 1 (p.getD 1)

/-- Modelled from the spec: number of other same-day events starting within
30 minutes of this event's boundaries (its start or its end). -/
def proximityCount (e : CostEvent) (ctx : List CostEvent) : ℕ :=
  (ctx.filter fun o =>
    decide (|(o.start_time : ℤ) - (e.start_time : ℤ)| ≤ 30 ∨
      |(o.start_time : ℤ) - (e.endTime : ℤ)| ≤ 30)).length

/-- Modelled from the spec: the afternoon test `start_time.hour >= 12`. -/
def isAfternoon (e : CostEvent) : Bool :=
  decide (12 ≤ e.start_time / 60)

/-- Modelled from the spec: `score_event`'s calculated cost, applying the
terms in the source's fixed order — base (with recovery override), meeting
overhead and no-agenda penalty for meeting/admin, deep-work discount,
afternoon discount (both on the duration component only), and the
back-to-back proximity penalty. -/
def score_event (e : CostEvent) (ctx : List CostEvent) : ℚ :=
  let base := costBase e
  let cost := base
  let cost := if isMeetingOrAdmin e.event_type then
      cost + ((clampParticipants e.participants : ℚ) - 1) * (3 / 2) else cost
  let cost := if isMeetingOrAdmin e.event_type ∧ e.has_agenda = some false then
      cost + 4 else cost
  let cost := if e.event_type = .deep_work then cost - base * (1 / 2) else cost
  let cost := if isAfternoon e then cost - base * (1 / 10) else cost
  cost + (proximityCount e ctx : ℚ) * 2

/-- The per-term cost breakdown exposed to the cost-explanation UI
(`CostBreakdownModal` renders exactly these named fields plus the total). -/
structure CostBreakdown where
  duration_component : ℚ
  participants : ℚ
  no_agenda : ℚ
  afternoon_discount : ℚ
  proximity_increment : ℚ
  base : ℚ
  total : ℚ
deriving DecidableEq, Repr

/-- Modelled from the spec: the breakdown returned by `score_event`.  Each
named term is exposed individually: the duration component carries the
deep-work discount (which the spec applies "to the duration component
only"), `base` carries the intrinsic negative base of recovery events, and
the remaining terms mirror the formula's addends. -/
def cost_breakdown (e : CostEvent) (ctx : List CostEvent) : CostBreakdown :=
  let rawBase := costBase e
  { duration_component :=
      if e.event_type = .recovery then 0
      else rawBase - (if e.event_type = .deep_work then rawBase * (1 / 2) else 0),
    participants :=
      if isMeetingOrAdmin e.event_type then
        ((clampParticipants e.participants : ℚ) - 1) * (3 / 2) else 0,
    no_agenda :=
      if isMeetingOrAdmin e.event_type ∧ e.has_agenda = some false then 4 else 0,
    afternoon_discount :=
      if isAfternoon e then -(rawBase * (1 / 10)) else 0,
    proximity_increment := (proximityCount e ctx : ℚ) * 2,
    base := if e.event_type = .recovery then rawBase else 0,
    total := score_event e ctx }

/-! ## Theorems for the cost-model claims -/

/-- C3: a 60-minute meeting with one participant, an agenda and no other
same-day events costs 9.0 in the morning; the identical event starting at
or after 12:00 costs 8.1 (the 10% afternoon discount applies to the
duration component only). -/
theorem score_event_meeting_reference (e : CostEvent)
    (hd : e.duration_minutes = 60) (ht : e.event_type = .meeting)
    (hp : e.participants = some 1) (ha : e.has_agenda = some true) :
    (e.start_time / 60 < 12 → score_event e [] = 9) ∧
    (12 ≤ e.start_time / 60 → score_event e [] = 81 / 10) := by
  constructor
  · intro h
    simp [score_event, costBase, clampParticipants, isMeetingOrAdmin, isAfternoon,
      proximityCount, hd, ht, hp, ha, Nat.not_le.mpr h]
    norm_num
  · intro h
    simp [score_event, costBase, clampParticipants, isMeetingOrAdmin, isAfternoon,
      proximityCount, hd, ht, hp, ha, h]
    norm_num

/-- Witness for C3: a concrete 9:00 meeting scores 9 and the same meeting
at 13:00 scores 8.1. -/
theorem score_event_meeting_reference_witness :
    score_event ⟨540, 60, .meeting, some 1, some true, 0⟩ [] = 9 ∧
    score_event ⟨780, 60, .meeting, some 1, some true, 0⟩ [] = 81 / 10 :=
  ⟨(score_event_meeting_reference _ rfl rfl rfl rfl).1 (by decide),
   (score_event_meeting_reference _ rfl rfl rfl rfl).2 (by decide)⟩

/-- C4: for every event and context, the named terms of the cost breakdown
(duration component, participants, no-agenda, afternoon discount, proximity
increment, base) sum exactly to the calculated cost, which is also the
breakdown's reported total. -/
theorem cost_breakdown_sums_to_total (e : CostEvent) (ctx : List CostEvent) :
    (cost_breakdown e ctx).duration_component + (cost_breakdown e ctx).participants +
      (cost_breakdown e ctx).no_agenda + (cost_breakdown e ctx).afternoon_discount +
      (cost_breakdown e ctx).proximity_increment + (cost_breakdown e ctx).base =
      score_event e ctx ∧
    (cost_breakdown e ctx).total = score_event e ctx := by
  refine ⟨?_, rfl⟩
  obtain ⟨st, dur, ty, p, ag, pv⟩ := e
  by_cases haft : (12 ≤ st / 60) <;> by_cases hag : ag = some false <;>
    cases ty <;>
      simp [cost_breakdown, score_event, costBase, isMeetingOrAdmin, isAfternoon,
        haft, hag] <;>
      ring

/-! ## Session reconciliation (modelled from the spec) -/

/-- Modelled from the spec: the statistical median of a list of deltas —
the middle element of the sorted list for odd length, the mean of the two
middle elements for even length, and 0 for the empty list (the empty case
is never used by `reconcile_session`, which short-circuits it). -/
def median (l : List ℚ) : ℚ :=
  let s := l.insertionSort (· ≤ ·)
  if s.length = 0 then 0
  else if s.length % 2 = 1 then s.getD (s.length / 2) 0
  else (s.getD (s.length / 2 - 1) 0 + s.getD (s.length / 2) 0) / 2

/-- A live vitals session: the CostModel estimate taken at session start
and the ordered cost-delta samples collected during the session. -/
structure SageSession where
  estimated_cost : ℚ
  cost_deltas : List ℚ
deriving DecidableEq, Repr

/-- Modelled from the spec: `reconcile_session` — at session end,
`actual_cost = estimated_cost + median(cost_deltas)`, with a session of
zero readings yielding `estimated_cost` unchanged. -/
def reconcile_session (s : SageSession) : ℚ :=
  if s.cost_deltas = [] then s.estimated_cost
  else s.estimated_cost + median s.cost_deltas

/-! ## Theorems for the reconciliation claim -/

/-- C9: `reconcile_session` returns the estimate plus the median of the
collected deltas; the delta history `[+2, +2, +20, +2, +2]` yields
`estimated_cost + 2` (the median ignores the outlier), and a session with
zero readings yields the estimate unchanged. -/
theorem reconcile_session_spec :
    (∀ est : ℚ, reconcile_session ⟨est, [2, 2, 20, 2, 2]⟩ = est + 2) ∧
    (∀ est : ℚ, reconcile_session ⟨est, []⟩ = est) ∧
    (∀ (est : ℚ) (ds : List ℚ), ds ≠ [] →
      reconcile_session ⟨est, ds⟩ = est + median ds) := by
  have hmed : median [2, 2, 20, 2, 2] = 2 := by decide
  refine ⟨?_, ?_, ?_⟩
  · intro est
    simp [reconcile_session, hmed]
  · intro est
    simp [reconcile_session]
  · intro est ds hds
    simp [reconcile_session, hds]

/-- Witness for C9: the general formula applied to a concrete one-reading
session. -/
theorem reconcile_session_spec_witness :
    reconcile_session ⟨0, [3]⟩ = 0 + median [3] :=
  reconcile_session_spec.2.2 0 [3] (by decide)

/-! ## Week optimizer slot search (modelled from the spec and the plan
file's `_find_earliest_slot` pseudocode) -/

/-- An occupied time range on a day: (start, end), minutes from midnight. -/
abbrev TimeRange := ℤ × ℤ

/-- Work-day start, 9:00, in minutes. -/
def work_start : ℤ := 540

/-- Work-day end, 17:00, in minutes. -/
def work_end : ℤ := 1020

/-- Ordering of ranges by start time (the pseudocode's sort key). -/
def startLE (a b : TimeRange) : Prop := a.1 ≤ b.1

instance : DecidableRel startLE := fun a b => inferInstanceAs (Decidable (a.1 ≤ b.1))

instance : IsTotal TimeRange startLE := ⟨fun a b => le_total a.1 b.1⟩

instance : IsTrans TimeRange startLE := ⟨fun _ _ _ hab hbc => le_trans hab hbc⟩

/-- Source line `sorted_events = sorted(day_events, key=lambda e: e.start_time)`. -/
def sortRanges (l : List TimeRange) : List TimeRange :=
  l.insertionSort startLE

/-- The cursor walk of `_find_earliest_slot`: for each range, if the gap
before it fits the duration, return the cursor; otherwise advance the
cursor to `max(cursor, range.end)`; after the last range, return the cursor
if the remainder before `work_end` fits. -/
def findSlotAux (d : ℤ) : ℤ → List TimeRange → Option ℤ
  | cursor, [] => if d ≤ work_end - cursor then some cursor else none
  | cursor, r :: rs =>
      if d ≤ r.1 - cursor then some cursor else findSlotAux d (max cursor r.2) rs

/-- Modelled from the spec: `_find_earliest_slot(day_events, duration)` —
sort the day's occupied ranges by start and walk them with a cursor
starting at `work_start`. -/
def find_earliest_slot (dayEvents : List TimeRange) (d : ℤ) : Option ℤ :=
  findSlotAux d work_start (sortRanges dayEvents)

/-- The cursor never moves backwards: a returned slot is at or after the
cursor the walk started from. -/
theorem findSlotAux_ge (d : ℤ) :
    ∀ (l : List TimeRange) (c t : ℤ), findSlotAux d c l = some t → c ≤ t := by
  intro l
  induction l with
  | nil =>
    intro c t h
    by_cases hc : d ≤ work_end - c
    · simp [findSlotAux, hc] at h
      omega
    · simp [findSlotAux, hc] at h
  | cons r rs ih =>
    intro c t h
    by_cases hc : d ≤ r.1 - c
    · simp [findSlotAux, hc] at h
      omega
    · simp only [findSlotAux, if_neg hc] at h
      have := ih (max c r.2) t h
      omega

/-- Soundness of the walk on a list sorted by start: a returned slot
`[t, t+d)` is disjoint from every range in the list. -/
theorem findSlotAux_sound (d : ℤ) :
    ∀ (l : List TimeRange) (c t : ℤ), l.Pairwise startLE →
      findSlotAux d c l = some t → ∀ r ∈ l, r.2 ≤ t ∨ t + d ≤ r.1 := by
  intro l
  induction l with
  | nil =>
    intro c t _ _ r hr
    exact absurd hr (List.not_mem_nil r)
  | cons r rs ih =>
    intro c t hsorted h q hq
    by_cases hc : d ≤ r.1 - c
    · have ht : t = c := by simp [findSlotAux, hc] at h; omega
      subst ht
      rcases List.mem_cons.mp hq with hq | hq
      · subst hq
        right; omega
      · right
        have hle : r.1 ≤ q.1 := (List.pairwise_cons.mp hsorted).1 q hq
        omega
    · simp only [findSlotAux, if_neg hc] at h
      rcases List.mem_cons.mp hq with hq | hq
      · subst hq
        left
        have := findSlotAux_ge d rs (max c q.2) t h
        omega
      · exact ih (max c r.2) t (List.pairwise_cons.mp hsorted).2 h q hq

/-- Minimality of the walk: if some position `u` at or after the initial
cursor fits the event (it is disjoint from every range and ends by
`work_end`), the walk succeeds with a slot no later than `u`.  No
sortedness is needed. -/
theorem findSlotAux_min (d : ℤ) :
    ∀ (l : List TimeRange) (c u : ℤ), c ≤ u →
      (∀ r ∈ l, r.2 ≤ u ∨ u + d ≤ r.1) → u + d ≤ work_end →
      ∃ t, findSlotAux d c l = some t ∧ t ≤ u := by
  intro l
  induction l with
  | nil =>
    intro c u hcu _ hend
    have hfit : d ≤ work_end - c := by omega
    exact ⟨c, by simp [findSlotAux, hfit], hcu⟩
  | cons r rs ih =>
    intro c u hcu hdisj hend
    by_cases hc : d ≤ r.1 - c
    · exact ⟨c, by simp [findSlotAux, hc], hcu⟩
    · have hr := hdisj r (List.mem_cons_self r rs)
      have hru : r.2 ≤ u := by
        rcases hr with hr | hr
        · exact hr
        · omega
      have hnext : max c r.2 ≤ u := by omega
      obtain ⟨t, ht, htu⟩ := ih (max c r.2) u hnext
        (fun q hq => hdisj q (List.mem_cons_of_mem r hq)) hend
      exact ⟨t, by simp only [findSlotAux, if_neg hc]; exact ht, htu⟩

/-- Sorting the ranges keeps exactly the same ranges. -/
theorem mem_sortRanges {r : TimeRange} {l : List TimeRange} :
    r ∈ sortRanges l ↔ r ∈ l :=
  (List.perm_insertionSort startLE l).mem_iff

/-- Soundness of `find_earliest_slot`: a returned slot starts at or after
`work_start` and is disjoint from every occupied range of the day. -/
theorem find_earliest_slot_sound {dayEvents : List TimeRange} {d t : ℤ}
    (h : find_earliest_slot dayEvents d = some t) :
    work_start ≤ t ∧ ∀ r ∈ dayEvents, r.2 ≤ t ∨ t + d ≤ r.1 := by
  refine ⟨findSlotAux_ge d _ _ _ h, fun r hr => ?_⟩
  exact findSlotAux_sound d (sortRanges dayEvents) work_start t
    (List.sorted_insertionSort startLE dayEvents) h r (mem_sortRanges.mpr hr)

/-- Minimality of `find_earliest_slot`: if any position `u ≥ work_start`
fits the event within the work window without overlapping any occupied
range, the search succeeds and returns a slot no later than `u`. -/
theorem find_earliest_slot_min {dayEvents : List TimeRange} {d u : ℤ}
    (hu : work_start ≤ u) (hend : u + d ≤ work_end)
    (hdisj : ∀ r ∈ dayEvents, r.2 ≤ u ∨ u + d ≤ r.1) :
    ∃ t, find_earliest_slot dayEvents d = some t ∧ t ≤ u :=
  findSlotAux_min d (sortRanges dayEvents) work_start u hu
    (fun r hr => hdisj r (mem_sortRanges.mp hr)) hend

/-! ## Theorem for the slot-search claim -/

/-- C5: the slot search walks the day's ranges sorted by start with a
cursor from `work_start` and is an earliest-fit: any returned slot starts
at or after `work_start` and overlaps no occupied range, and whenever some
position at or after `work_start` fits the duration inside the work window
without overlap, the search returns a slot no later than it (so a `none`
result means the day is infeasible for the event). -/
theorem find_earliest_slot_spec (dayEvents : List TimeRange) (d : ℤ) :
    (∀ t, find_earliest_slot dayEvents d = some t →
      work_start ≤ t ∧ ∀ r ∈ dayEvents, r.2 ≤ t ∨ t + d ≤ r.1) ∧
    (∀ u, work_start ≤ u → u + d ≤ work_end →
      (∀ r ∈ dayEvents, r.2 ≤ u ∨ u + d ≤ r.1) →
      ∃ t, find_earliest_slot dayEvents d = some t ∧ t ≤ u) :=
  ⟨fun _ h => find_earliest_slot_sound h,
   fun _ hu hend hdisj => find_earliest_slot_min hu hend hdisj⟩

/-- Witness for C5: on a day with one meeting 10:00–11:00, a 60-minute
event is slotted at 9:00 (the gap before the meeting), which the spec
theorem certifies as disjoint from the meeting and earliest. -/
theorem find_earliest_slot_spec_witness :
    find_earliest_slot [(600, 660)] 60 = some 540 ∧
    (work_start ≤ 540 ∧ ∀ r ∈ [((600 : ℤ), (660 : ℤ))], r.2 ≤ 540 ∨ 540 + 60 ≤ r.1) :=
  ⟨by decide, (find_earliest_slot_spec [(600, 660)] 60).1 540 (by decide)⟩

/-! ## Gap penalty (modelled from the spec and the plan file's scoring
model for gaps) -/

/-- Ranges listed in order with each ending before the next starts. -/
def disjBefore (a b : TimeRange) : Prop := a.2 ≤ b.1

instance : DecidableRel disjBefore := fun a b => inferInstanceAs (Decidable (a.2 ≤ b.1))

/-- Modelled from the spec: the penalty for one maximal contiguous idle
span, `2*hours - 1` for a span of at least one whole hour and 0 otherwise
(`gap` in minutes, whole hours = `gap / 60`). -/
def gap_penalty (gap : ℤ) : ℤ :=
  if 1 ≤ gap / 60 then 2 * (gap / 60) - 1 else 0

/-- The cursor walk of the day gap cost: each range is charged the penalty
of the idle span between the cursor and its start; nothing after the last
range's end is ever visited, so evening idle time is never charged. -/
def dayGapCostAux : ℤ → List TimeRange → ℤ
  | _, [] => 0
  | cursor, r :: rs => gap_penalty (r.1 - cursor) + dayGapCostAux (max cursor r.2) rs

/-- Modelled from the spec: the reported gap cost of a day — sort the day's
ranges by start and charge every idle span strictly between `work_start`
and the last range's end. -/
def day_gap_cost (dayEvents : List TimeRange) : ℤ :=
  dayGapCostAux work_start (sortRanges dayEvents)

/-- The idle spans of a day: the span from the cursor to the first range's
start, then between consecutive ranges. -/
def gapsOf : ℤ → List TimeRange → List ℤ
  | _, [] => []
  | cursor, r :: rs => (r.1 - cursor) :: gapsOf r.2 rs

/-- On an ordered, pairwise-disjoint day whose ranges start at or after
the cursor, the walk charges exactly the maximal idle spans, each
independently. -/
theorem dayGapCostAux_eq_gaps :
    ∀ (l : List TimeRange) (c : ℤ), l.Pairwise disjBefore →
      (∀ r ∈ l, r.1 < r.2) → (∀ r ∈ l, c ≤ r.1) →
      dayGapCostAux c l = ((gapsOf c l).map gap_penalty).sum := by
  intro l
  induction l with
  | nil => intro c _ _ _; rfl
  | cons r rs ih =>
    intro c hpair hwf hc
    have hcr : c ≤ r.1 := hc r (List.mem_cons_self r rs)
    have hrr : r.1 < r.2 := hwf r (List.mem_cons_self r rs)
    have hmax : max c r.2 = r.2 := by omega
    have hnext : ∀ q ∈ rs, r.2 ≤ q.1 := (List.pairwise_cons.mp hpair).1
    simp only [dayGapCostAux, gapsOf, List.map_cons, List.sum_cons, hmax]
    rw [ih r.2 (List.pairwise_cons.mp hpair).2
      (fun q hq => hwf q (List.mem_cons_of_mem r hq)) hnext]

/-! ## Theorem for the gap-cost claim -/

/-- C7: the day gap cost charges a maximal idle span of `h` whole hours
`2h − 1` points (and a sub-hour span nothing); on an ordered disjoint day
it is the sum of these penalties over the maximal idle spans independently
— a single 3-hour gap before a 12:00–15:00 event costs 5, two separate
1-hour gaps cost 1 + 1 = 2 (not the 3 a contiguous 2-hour span would
cost), and idle time after the last event (evening) is never charged: a
day fully packed from 9:00 to 13:00 costs 0 despite four idle hours before
`work_end`. -/
theorem day_gap_cost_spec :
    (∀ h : ℤ, 1 ≤ h → gap_penalty (60 * h) = 2 * h - 1) ∧
    (∀ g : ℤ, 0 ≤ g → g < 60 → gap_penalty g = 0) ∧
    (∀ (l : List TimeRange), l.Pairwise disjBefore → (∀ r ∈ l, r.1 < r.2) →
      (∀ r ∈ l, work_start ≤ r.1) →
      day_gap_cost l = ((gapsOf work_start l).map gap_penalty).sum) ∧
    day_gap_cost [(720, 900)] = 5 ∧
    day_gap_cost [(600, 660), (720, 780)] = 2 ∧
    gap_penalty 120 = 3 ∧
    day_gap_cost [(540, 780)] = 0 := by
  refine ⟨?_, ?_, ?_, by decide, by decide, by decide, by decide⟩
  · intro h hh
    have : (60 * h) / 60 = h := by omega
    simp [gap_penalty, this, hh]
  · intro g hg0 hg60
    have : g / 60 = 0 := by omega
    simp [gap_penalty, this]
  · intro l hpair hwf hstart
    have hsorted : List.Sorted startLE l := by
      refine List.Pairwise.imp_of_mem ?_ hpair
      intro a b ha hb hab
      have := hwf a ha
      simp only [startLE]
      simp only [disjBefore] at hab
      omega
    unfold day_gap_cost
    rw [show sortRanges l = l from hsorted.insertionSort_eq]
    exact dayGapCostAux_eq_gaps l work_start hpair hwf hstart

/-- Witness for C7: the penalty formula applied at a concrete 3-hour span,
and the general span-sum identity applied to a concrete ordered day. -/
theorem day_gap_cost_spec_witness :
    gap_penalty (60 * 3) = 2 * 3 - 1 ∧
    day_gap_cost [(600, 660), (720, 780)] =
      ((gapsOf work_start [(600, 660), (720, 780)]).map gap_penalty).sum :=
  ⟨day_gap_cost_spec.1 3 (by decide),
   day_gap_cost_spec.2.2.1 [(600, 660), (720, 780)] (by decide) (by decide) (by decide)⟩

/-! ## Week optimizer assignment loop (modelled from the spec and the plan
file's `optimize_week` description) -/

/-- A movable event, reduced to what the placement loop uses: its id and
duration in minutes.  The loop processes events in the fixed, deterministic
order of the input list (the spec's "by current start time, ties by id"
order is established by the caller). -/
structure MovEvent where
  id : ℕ
  duration : ℤ
deriving DecidableEq, Repr

/-- A proposed placement: which event, which day of the week (index), and
the assigned time range. -/
structure Placement where
  id : ℕ
  day : ℕ
  slot : TimeRange
deriving DecidableEq, Repr

/-- Day selection, scored by finish time `slot + duration`: walk the days
in order and keep the strictly better later candidate, so ties go to the
earliest day.  Returns the chosen day index and slot start. -/
def bestDayAux (d : ℤ) : ℕ → List (List TimeRange) → Option (ℕ × ℤ)
  | _, [] => none
  | i, day :: rest =>
      match find_earliest_slot day d, bestDayAux d (i + 1) rest with
      | none, later => later
      | some t, none => some (i, t)
      | some t, some (j, u) => if u + d < t + d then some (j, u) else some (i, t)

/-- The optimizer state threaded through the loop: the per-day occupied
ranges (unmovable events plus placements made so far), the placements, and
the ids flagged unplaceable. -/
abbrev OWState := List (List TimeRange) × List Placement × List ℕ

/-- One loop iteration: choose the best feasible day for the event; if none
is feasible the event is flagged unplaceable, otherwise the placement is
recorded and the chosen day's occupied ranges are updated (inserted in
start order) before the next event is processed. -/
def owStep (s : OWState) (e : MovEvent) : OWState :=
  match bestDayAux e.duration 0 s.1 with
  | none => (s.1, s.2.1, s.2.2 ++ [e.id])
  | some (i, t) =>
      (s.1.set i (List.orderedInsert startLE (t, t + e.duration) (s.1.getD i [])),
       s.2.1 ++ [⟨e.id, i, (t, t + e.duration)⟩], s.2.2)

/-- Modelled from the spec: `optimize_week` — fold the placement step over
the movable events, starting from the unmovable events' occupied ranges
per day. -/
def optimize_week (w0 : List (List TimeRange)) (movable : List MovEvent) : OWState :=
  movable.foldl owStep (w0, [], [])

/-- A well-formed day: ranges listed in order, pairwise disjoint, each with
positive length. -/
def GoodDay (day : List TimeRange) : Prop :=
  day.Pairwise disjBefore ∧ ∀ r ∈ day, r.1 < r.2

/-- Day selection only returns in-bounds days, and the returned slot is the
earliest slot of the chosen day. -/
theorem bestDayAux_spec (d : ℤ) :
    ∀ (w : List (List TimeRange)) (n j : ℕ) (t : ℤ),
      bestDayAux d n w = some (j, t) →
      ∃ k, k < w.length ∧ j = n + k ∧ find_earliest_slot (w.getD k []) d = some t := by
  intro w
  induction w with
  | nil => intro n j t h; simp [bestDayAux] at h
  | cons day rest ih =>
    intro n j t h
    cases hslot : find_earliest_slot day d with
    | none =>
      simp only [bestDayAux, hslot] at h
      obtain ⟨k, hk, hj, hfind⟩ := ih (n + 1) j t h
      refine ⟨k + 1, ?_, by omega, by simpa using hfind⟩
      simp only [List.length_cons]
      omega
    | some t0 =>
      cases hlater : bestDayAux d (n + 1) rest with
      | none =>
        simp only [bestDayAux, hslot, hlater, Option.some.injEq, Prod.mk.injEq] at h
        obtain ⟨hj, ht⟩ := h
        refine ⟨0, by simp, by omega, ?_⟩
        simpa [← hj, ← ht] using hslot
      | some ju =>
        obtain ⟨jj, uu⟩ := ju
        simp only [bestDayAux, hslot, hlater] at h
        by_cases hcmp : uu + d < t0 + d
        · rw [if_pos hcmp] at h
          simp only [Option.some.injEq, Prod.mk.injEq] at h
          obtain ⟨hj, ht⟩ := h
          obtain ⟨k, hk, hjk, hfind⟩ := ih (n + 1) j t (by rw [hlater, hj, ht])
          refine ⟨k + 1, ?_, by omega, by simpa using hfind⟩
          simp only [List.length_cons]
          omega
        · rw [if_neg hcmp] at h
          simp only [Option.some.injEq, Prod.mk.injEq] at h
          obtain ⟨hj, ht⟩ := h
          refine ⟨0, by simp, by omega, ?_⟩
          simpa [← hj, ← ht] using hslot

/-- Inserting a positive-length range that is disjoint from every range of
a well-formed day (in start order) keeps the day well-formed. -/
theorem goodDay_orderedInsert (nr : TimeRange) (hnr : nr.1 < nr.2) :
    ∀ (l : List TimeRange), GoodDay l → (∀ r ∈ l, r.2 ≤ nr.1 ∨ nr.2 ≤ r.1) →
      GoodDay (List.orderedInsert startLE nr l) := by
  intro l
  induction l with
  | nil =>
    intro _ _
    exact ⟨List.pairwise_singleton _ _, by simpa using hnr⟩
  | cons b l ih =>
    intro hgood hdisj
    obtain ⟨hpair, hwf⟩ := hgood
    have hb := hdisj b (List.mem_cons_self b l)
    have hbwf : b.1 < b.2 := hwf b (List.mem_cons_self b l)
    by_cases hle : startLE nr b
    · rw [List.orderedInsert, if_pos hle]
      simp only [startLE] at hle
      have hnb : nr.2 ≤ b.1 := by
        rcases hb with hb | hb
        · omega
        · exact hb
      refine ⟨List.pairwise_cons.mpr ⟨?_, hpair⟩, ?_⟩
      · intro q hq
        rcases List.mem_cons.mp hq with hq | hq
        · subst hq; exact hnb
        · have hbq : disjBefore b q := (List.pairwise_cons.mp hpair).1 q hq
          have hqwf : q.1 < q.2 := hwf q (List.mem_cons_of_mem b hq)
          rcases hdisj q (List.mem_cons_of_mem b hq) with h | h
          · simp only [disjBefore] at hbq ⊢
            omega
          · exact h
      · intro r hr
        rcases List.mem_cons.mp hr with hr | hr
        · subst hr; exact hnr
        · exact hwf r hr
    · rw [List.orderedInsert, if_neg hle]
      simp only [startLE, not_le] at hle
      have hrest := ih ⟨(List.pairwise_cons.mp hpair).2,
        fun r hr => hwf r (List.mem_cons_of_mem b hr)⟩
        (fun r hr => hdisj r (List.mem_cons_of_mem b hr))
      refine ⟨List.pairwise_cons.mpr ⟨?_, hrest.1⟩, ?_⟩
      · intro q hq
        rcases (List.mem_orderedInsert startLE).mp hq with hq | hq
        · subst hq
          rcases hb with h | h
          · exact h
          · simp only [disjBefore]; omega
        · exact (List.pairwise_cons.mp hpair).1 q hq
      · intro r hr
        rcases List.mem_cons.mp hr with hr | hr
        · subst hr; exact hbwf
        · exact hrest.2 r hr

/-- Reading a list of days at the index just updated, in bounds. -/
theorem getD_set_self_day (w : List (List TimeRange)) (i : ℕ)
    (newDay : List TimeRange) (hlen : i < w.length) :
    (w.set i newDay).getD i [] = newDay := by
  simp [List.getD_eq_getElem?_getD, List.getElem?_set_self hlen]

/-- Updating one day to a superset of its old ranges only grows every day's
range set. -/
theorem getD_set_mono (w : List (List TimeRange)) (i : ℕ)
    (newDay : List TimeRange) (hsub : ∀ r ∈ w.getD i [], r ∈ newDay) :
    ∀ (k : ℕ) (r : TimeRange), r ∈ w.getD k [] → r ∈ (w.set i newDay).getD k [] := by
  intro k r hr
  by_cases hik : i = k
  · subst hik
    by_cases hlen : i < w.length
    · rw [getD_set_self_day w i newDay hlen]
      exact hsub r hr
    · rw [List.set_eq_of_length_le (by omega)]
      exact hr
  · have heq : (w.set i newDay).getD k [] = w.getD k [] := by
      simp [List.getD_eq_getElem?_getD, List.getElem?_set_ne hik]
    rw [heq]
    exact hr

/-- An in-bounds `getD` is a member of the list of days. -/
theorem getD_mem_days (w : List (List TimeRange)) (i : ℕ) (h : i < w.length) :
    w.getD i [] ∈ w := by
  rw [List.getD_eq_getElem?_getD, List.getElem?_eq_getElem h]
  exact List.getElem_mem h

/-- Loop invariant of the placement fold: every day is well-formed, every
recorded placement's slot is among its day's occupied ranges, and every
initial (unmovable) range is still among its day's occupied ranges. -/
def OWInv (w0 : List (List TimeRange)) (s : OWState) : Prop :=
  (∀ day ∈ s.1, GoodDay day) ∧
  (∀ p ∈ s.2.1, p.slot ∈ s.1.getD p.day []) ∧
  (∀ k : ℕ, ∀ r ∈ w0.getD k [], r ∈ s.1.getD k [])

/-- One placement step preserves the loop invariant: the chosen slot is
disjoint from the chosen day's current ranges by slot-search soundness, so
inserting it keeps the day well-formed, and the update only grows the
days' range sets. -/
theorem owStep_inv (w0 : List (List TimeRange)) (s : OWState) (e : MovEvent)
    (hinv : OWInv w0 s) (hdur : 0 < e.duration) : OWInv w0 (owStep s e) := by
  obtain ⟨hgood, hplace, hsub⟩ := hinv
  cases hbest : bestDayAux e.duration 0 s.1 with
  | none =>
    simp only [owStep, hbest]
    exact ⟨hgood, hplace, hsub⟩
  | some it =>
    obtain ⟨i, t⟩ := it
    simp only [owStep, hbest]
    obtain ⟨k, hklen, hik, hfind⟩ := bestDayAux_spec e.duration s.1 0 i t hbest
    have hik0 : i = k := by omega
    subst hik0
    have hilen : i < s.1.length := hklen
    have hgoodOld : GoodDay (s.1.getD i []) := hgood _ (getD_mem_days s.1 i hilen)
    have hsound := find_earliest_slot_sound hfind
    have hgoodNew : GoodDay (List.orderedInsert startLE (t, t + e.duration)
        (s.1.getD i [])) :=
      goodDay_orderedInsert (t, t + e.duration) (by simpa using hdur)
        (s.1.getD i []) hgoodOld hsound.2
    have hmono := getD_set_mono s.1 i
      (List.orderedInsert startLE (t, t + e.duration) (s.1.getD i []))
      (fun r hr => (List.mem_orderedInsert startLE).mpr (Or.inr hr))
    refine ⟨?_, ?_, ?_⟩
    · intro day hday
      rcases List.mem_or_eq_of_mem_set hday with h | h
      · exact hgood day h
      · rw [h]
        exact hgoodNew
    · intro p hp
      rcases List.mem_append.mp hp with hp | hp
      · exact hmono p.day p.slot (hplace p hp)
      · have hpeq : p = ⟨e.id, i, (t, t + e.duration)⟩ := by simpa using hp
        rw [hpeq]
        rw [getD_set_self_day s.1 i _ hilen]
        exact (List.mem_orderedInsert startLE).mpr (Or.inl rfl)
    · intro k r hr
      exact hmono k r (hsub k r hr)

/-- The loop invariant holds along the whole fold. -/
theorem owInv_foldl (w0 : List (List TimeRange)) :
    ∀ (movable : List MovEvent) (s : OWState), OWInv w0 s →
      (∀ e ∈ movable, 0 < e.duration) → OWInv w0 (movable.foldl owStep s) := by
  intro movable
  induction movable with
  | nil => intro s hs _; exact hs
  | cons e es ih =>
    intro s hs hd
    exact ih (owStep s e) (owStep_inv w0 s e hs (hd e (List.mem_cons_self e es)))
      fun q hq => hd q (List.mem_cons_of_mem e hq)

/-! ## Theorem for the optimizer no-overlap claim -/

/-- C6: when the initial per-day unmovable ranges are well-formed (ordered,
pairwise disjoint, positive length) and every movable event has positive
duration, the optimizer's final per-day occupied ranges are pairwise
non-intersecting on every day; every recorded placement's slot is among its
day's final ranges and every unmovable range is still among its day's final
ranges — so any two events placed on the same day (movable or unmovable,
early or late in the processing order) do not intersect. -/
theorem optimize_week_no_overlap (w0 : List (List TimeRange)) (movable : List MovEvent)
    (hw : ∀ day ∈ w0, day.Pairwise disjBefore ∧ ∀ r ∈ day, r.1 < r.2)
    (hdur : ∀ e ∈ movable, 0 < e.duration) :
    (∀ day ∈ (optimize_week w0 movable).1,
      day.Pairwise fun a b => a.2 ≤ b.1 ∨ b.2 ≤ a.1) ∧
    (∀ p ∈ (optimize_week w0 movable).2.1,
      p.slot ∈ (optimize_week w0 movable).1.getD p.day []) ∧
    (∀ k : ℕ, ∀ r ∈ w0.getD k [], r ∈ (optimize_week w0 movable).1.getD k []) := by
  have hinv : OWInv w0 (optimize_week w0 movable) :=
    owInv_foldl w0 movable (w0, [], [])
      ⟨fun day h => ⟨(hw day h).1, (hw day h).2⟩, by simp, fun _ _ hr => hr⟩ hdur
  exact ⟨fun day hday => ((hinv.1 day hday).1).imp fun h => Or.inl h,
    hinv.2.1, hinv.2.2⟩

/-- Witness for C6: a week of one day holding one unmovable meeting
10:00–11:00 and one movable 90-minute event; the optimizer packs the
movable event at 11:00 and the certified conclusions hold for the
resulting concrete state. -/
theorem optimize_week_no_overlap_witness :
    (∀ day ∈ (optimize_week [[((600 : ℤ), (660 : ℤ))]] [⟨1, 90⟩]).1,
      day.Pairwise fun a b => a.2 ≤ b.1 ∨ b.2 ≤ a.1) ∧
    (∀ p ∈ (optimize_week [[((600 : ℤ), (660 : ℤ))]] [⟨1, 90⟩]).2.1,
      p.slot ∈ (optimize_week [[((600 : ℤ), (660 : ℤ))]] [⟨1, 90⟩]).1.getD p.day []) :=
  ⟨(optimize_week_no_overlap [[((600 : ℤ), (660 : ℤ))]] [⟨1, 90⟩]
      (by decide) (by decide)).1,
   (optimize_week_no_overlap [[((600 : ℤ), (660 : ℤ))]] [⟨1, 90⟩]
      (by decide) (by decide)).2.1⟩
